import Mathlib

/-!
Shallow embedding of `src/osmdata-sc.cpp` from the osmdata repository: the
silicate (SC) flatteners `osm_sc::get_osm_relations`, `osm_sc::get_osm_ways`,
`osm_sc::get_osm_nodes`, the synthetic-identifier generator `random_id`, and
the top-level entry point `rcpp_osmdata_sc`.

Modelling conventions:
* OSM identifiers (`osmid_t`, a 64-bit integer) are modelled as `Int`;
  `std::to_string` on them is `toString`.
* `double` values (`runif` draws, node coordinates) are modelled as `ℚ`.
* An `Rcpp::CharacterMatrix` of `n` preallocated rows is modelled as a list of
  `n` default rows; the fill pass writes rows by explicit index
  (`mat (i++, ...) = ...`), and a write past the allocated bound — undefined
  behaviour in the C++ — is modelled as `Option` failure (`none`).
* The host's uniform random source (`Rcpp::runif`) is modelled as a stream
  `u : ℕ → ℚ` of successive draws; each call to `runif (1) [0]` consumes the
  next draw, so the edge with global index `c` (counter `count_w`) consumes
  draws `10*c .. 10*c+9`.
* `Rcpp::checkUserInterrupt` is modelled by a host signal polled at the same
  program points as in the source; a raised signal aborts the traversal with
  `Except.error ()` (the R "operation cancelled" condition), so no output
  tables exist in that case.
-/

/-- OSM entity identifier, `osmid_t` (a 64-bit integer) in the source. -/
abbrev OsmId := Int

/-- A node of the upstream model: longitude, latitude and its key-value tags,
as read by `get_osm_nodes` (`ni->second.lon`, `.lat`, `.key_val`). -/
structure OsmNode where
  lon : ℚ
  lat : ℚ
  key_val : List (String × String)
  deriving DecidableEq, Repr

/-- A way of the upstream model: its ordered node-id sequence and key-value
tags, as read by `get_osm_ways` (`wi->second.nodes`, `.key_val`). -/
structure OsmWay where
  nodes : List OsmId
  key_val : List (String × String)
  deriving DecidableEq, Repr

/-- A relation of the upstream model: its id, member references with roles
(`itr->ways`) and key-value tags, as read by `get_osm_relations`. -/
structure OsmRelation where
  id : OsmId
  ways : List (OsmId × String)
  key_val : List (String × String)
  deriving DecidableEq, Repr

/-- The `Nodes` container (`std::map <osmid_t, Node>`), as the id-ordered list
of its entries (its natural iteration order). -/
abbrev Nodes := List (OsmId × OsmNode)

/-- The `Ways` container (`std::map <osmid_t, Way>`), as the id-ordered list
of its entries. -/
abbrev Ways := List (OsmId × OsmWay)

/-- The `Relations` container (a vector of `Relation`), as a list. -/
abbrev Relations := List OsmRelation

/-- A row of a three-column character matrix. -/
abbrev Row3 := String × String × String

/-- A row of a two-column character matrix. -/
abbrev Row2 := String × String

/-- Sequential indexed writes into a preallocated buffer, the Rcpp matrix fill
pattern `mat (i++, _) = row`: each row is written at the next index; a write
at an index outside the buffer (undefined behaviour in the C++) yields
`none`. -/
def writeRows {α : Type} : List α → ℕ → List α → Option (List α)
  | buf, _, [] => some buf
  | buf, i, r :: rs =>
      if i < buf.length then writeRows (buf.set i r) (i + 1) rs else none

/-- A preallocated matrix of `n` rows (`Rcpp::CharacterMatrix (Rcpp::Dimension
(n, _))`, rows default-initialised to `d`) filled by sequential indexed
writes of `rows` starting at index 0. -/
def fillMatrix {α : Type} (n : ℕ) (d : α) (rows : List α) : Option (List α) :=
  writeRows (List.replicate n d) 0 rows

/-- The 62-symbol alphabet `charset` of `random_id`: digits, uppercase and
lowercase letters (`sizeof (charset) - 1 = 62` entries, the terminating NUL
excluded). -/
def charset : List Char :=
  "0123456789ABCDEFGHIJKLMNOPQRSTUVWXYZabcdefghijklmnopqrstuvwxyz".toList

/-- The index computed by `randchar` from the `t`-th uniform draw:
`static_cast <size_t> (floor (Rcpp::runif (1) [0] * max_index))` with
`max_index = 62`. -/
def runifIndex (u : ℕ → ℚ) (t : ℕ) : ℕ :=
  (⌊u t * 62⌋).toNat

/-- One character produced by the `randchar` lambda of `random_id` from the
`t`-th uniform draw: `charset [runifIndex u t]` (an out-of-range index would
be undefined behaviour in the C++; the total model returns `'?'` there). -/
def randchar (u : ℕ → ℚ) (t : ℕ) : Char :=
  charset.getD (runifIndex u t) '?'

/-- The function `random_id (len)`: a string of `len` characters, generated by
`std::generate_n` from `len` successive calls of `randchar`, the first of
which consumes draw number `start` of the host's random stream. -/
def random_id (u : ℕ → ℚ) (start len : ℕ) : String :=
  ⟨(List.range len).map fun j => randchar u (start + j)⟩

/-- The constant `length_ids = 10` of `get_osm_ways`: the length of every
synthetic edge identifier. -/
def length_ids : ℕ := 10

/-- The iteration pattern of the inner loop of `get_osm_ways`: `wj` runs from
`nodes.begin ()` to `std::prev (nodes.end ())` (or not at all when the way
is empty), visiting the pair `(*wj, *std::next (wj))` — i.e. the list of
consecutive node pairs. -/
def consecPairs : List OsmId → List (OsmId × OsmId)
  | [] => []
  | [_] => []
  | a :: b :: rest => (a, b) :: consecPairs (b :: rest)

namespace osm_sc

/-- Modelled from the spec: the external relation tracer `trace_relation`
(declared in `osmdata.h`, its definition not under `src/`): per the spec it
resolves one relation into "the flattened list of (member-way-id, role)
pairs" together with a list of tag pairs, its resolution strategy being an
opaque dependency.  It is therefore modelled as an arbitrary function
parameter. -/
def Tracer := OsmRelation → List (OsmId × String) × List (String × String)

/-- The counting pre-pass of `get_osm_relations` for `nrow_kv`: the sum of
`itr->key_val.size ()` over all relations. -/
def relations_nrow_kv : Relations → ℕ
  | [] => 0
  | r :: rest => r.key_val.length + relations_nrow_kv rest

/-- The counting pre-pass of `get_osm_relations` for `nrow_memb`: the sum of
`itr->ways.size ()` over all relations. -/
def relations_nrow_memb : Relations → ℕ
  | [] => 0
  | r :: rest => r.ways.length + relations_nrow_memb rest

/-- The fill loop of `get_osm_relations`: for each relation, `trace_relation`
yields `relation_ways` (and `relation_kv`, which the function never reads);
one membership row `(to_string id, to_string ref, role)` is written per
traced pair and one key-value row per entry of the relation's own
`key_val`.  Returns the rows written to `rel_mat` and to `kv_mat`, in write
order. -/
def relsLoop (tr : Tracer) : Relations → List Row3 × List Row3
  | [] => ([], [])
  | r :: rest =>
      let relation_ways := (tr r).1
      let memb := relation_ways.map fun p => (toString r.id, toString p.1, p.2)
      let kv := r.key_val.map fun k => (toString r.id, k.1, k.2)
      let tail := relsLoop tr rest
      (memb ++ tail.1, kv ++ tail.2)

/-- The two data frames assigned by `get_osm_relations`: `rel_df`
(`object_, ref, role`) and `kv_df` (`object_, key, value`). -/
structure RelTables where
  rel_df : List Row3
  kv_df : List Row3
  deriving DecidableEq, Repr

/-- The function `osm_sc::get_osm_relations`: a counting pre-pass sizes
`rel_mat` and `kv_mat`, the traversal writes rows by explicit indices
`i_rel_mat` and `i_kv_mat`, and the data frames are assigned from the
matrices afterwards.  The local vector `ids` of the source is filled but
used by no output, so it is omitted. -/
def get_osm_relations (tr : Tracer) (rels : Relations) : Option RelTables := do
  let rows := relsLoop tr rels
  let rel_mat ← fillMatrix (relations_nrow_memb rels) ("", "", "") rows.1
  let kv_mat ← fillMatrix (relations_nrow_kv rels) ("", "", "") rows.2
  some ⟨rel_mat, kv_mat⟩

/-- The edge contribution of one way to the counting pre-pass of
`get_osm_ways`: `nodes.size () - 1` when the way has at least one node,
otherwise nothing. -/
def way_nedges (w : OsmWay) : ℕ :=
  if w.nodes.length > 0 then w.nodes.length - 1 else 0

/-- The counting pre-pass of `get_osm_ways` for `nedges`. -/
def ways_nedges : Ways → ℕ
  | [] => 0
  | (_, w) :: rest => way_nedges w + ways_nedges rest

/-- The counting pre-pass of `get_osm_ways` for `nkv`: the sum of
`wi->second.key_val.size ()` over all ways. -/
def ways_nkv : Ways → ℕ
  | [] => 0
  | (_, w) :: rest => w.key_val.length + ways_nkv rest

/-- The inner edge loop of `get_osm_ways` for one way: for each consecutive
node pair an edge row `(to_string *wj, to_string *next wj, idj)` with
`idj = random_id (length_ids)`, and a linkage row `(idj, to_string wi->first)`,
both written at index `count_w`, which also determines the edge's block of
uniform draws (ten per edge, consumed sequentially). -/
def edgeLoop (u : ℕ → ℚ) (wid : OsmId) : ℕ → List OsmId → List Row3 × List Row2
  | _, [] => ([], [])
  | _, [_] => ([], [])
  | count_w, a :: b :: rest =>
      let idj := random_id u (length_ids * count_w) length_ids
      let tail := edgeLoop u wid (count_w + 1) (b :: rest)
      ((toString a, toString b, idj) :: tail.1, (idj, toString wid) :: tail.2)

/-- The traversal loop of `get_osm_ways`, with `Rcpp::checkUserInterrupt ()`
at the head of every iteration modelled by the host signal `sig` indexed by
the iteration number `p`: a raised signal aborts with the interrupt
condition.  `count_w` is the shared explicit row index of `edge_mat` and
`object_link_edge_mat`.  Returns the rows written to the three matrices. -/
def waysTrav (sig : ℕ → Bool) (u : ℕ → ℚ) :
    ℕ → ℕ → Ways → Except Unit (List Row3 × List Row2 × List Row3)
  | _, _, [] => Except.ok ([], [], [])
  | p, count_w, (wid, w) :: rest =>
      if sig p then Except.error ()
      else
        let el := edgeLoop u wid count_w w.nodes
        let ks := w.key_val.map fun kj => (toString wid, kj.1, kj.2)
        match waysTrav sig u (p + 1) (count_w + el.1.length) rest with
        | Except.error e => Except.error e
        | Except.ok (es, ls, kvs) => Except.ok (el.1 ++ es, el.2 ++ ls, ks ++ kvs)

/-- The three data frames assigned by `get_osm_ways`: `edge`
(`.vx0, .vx1, edge_`), `object_link_edge` (`edge_, object_`) and `kv_df`
(`object_, key, value`). -/
structure WayTables where
  edge : List Row3
  object_link_edge : List Row2
  kv_df : List Row3
  deriving DecidableEq, Repr

/-- The function `osm_sc::get_osm_ways`: `Rcpp::RNGScope` seeds the host
random stream `u` once per invocation; the counting pre-pass sizes the three
matrices; the traversal fills them; the data frames are assigned from the
matrices after the loop completes (with no host interruption on this pure
path). -/
def get_osm_ways (u : ℕ → ℚ) (ways : Ways) : Option WayTables :=
  match waysTrav (fun _ => false) u 0 0 ways with
  | Except.error _ => none
  | Except.ok rows => do
      let edge_mat ← fillMatrix (ways_nedges ways) ("", "", "") rows.1
      let ole_mat ← fillMatrix (ways_nedges ways) ("", "") rows.2.1
      let kv_mat ← fillMatrix (ways_nkv ways) ("", "", "") rows.2.2
      some ⟨edge_mat, ole_mat, kv_mat⟩

/-- The counting pre-pass of `get_osm_nodes` for `nkeys`: the sum of
`ni->second.key_val.size ()` over all nodes. -/
def nodes_nkeys : Nodes → ℕ
  | [] => 0
  | (_, nd) :: rest => nd.key_val.length + nodes_nkeys rest

/-- A row of the vertex table: the `node_mat` coordinate pair together with
the `node_ids` entry written at the same index. -/
abbrev VertexRow := ℚ × ℚ × String

/-- Prepends the rows written for one node (one vertex row, then its
key-value rows) to the rows of the remaining traversal, propagating an
interrupt abort unchanged. -/
def nodeRowsCons (nid : OsmId) (nd : OsmNode)
    (r : Except Unit (List VertexRow × List Row3)) :
    Except Unit (List VertexRow × List Row3) :=
  match r with
  | Except.error e => Except.error e
  | Except.ok (vs, ks) =>
      Except.ok ((nd.lon, nd.lat, toString nid) :: vs,
        (nd.key_val.map fun kv => (toString nid, kv.1, kv.2)) ++ ks)

/-- The traversal loop of `get_osm_nodes`: `Rcpp::checkUserInterrupt ()` is
reached only when `i % 1000 == 0`, with `i` the explicit node index; the
host signal `sig` is indexed by `i`.  Returns the list of indices at which
the interrupt poll happened, and either the interrupt condition or the rows
written to `node_mat`/`node_ids` and to `kv_mat`. -/
def nodesTrav (sig : ℕ → Bool) :
    ℕ → Nodes → List ℕ × Except Unit (List VertexRow × List Row3)
  | _, [] => ([], Except.ok ([], []))
  | i, (nid, nd) :: rest =>
      if i % 1000 = 0 then
        if sig i then ([i], Except.error ())
        else
          let t := nodesTrav sig (i + 1) rest
          (i :: t.1, nodeRowsCons nid nd t.2)
      else
        let t := nodesTrav sig (i + 1) rest
        (t.1, nodeRowsCons nid nd t.2)

/-- The two data frames assigned by `get_osm_nodes`: `node_df`
(`x_, y_, vertex_`) and `kv_df` (`object_, key, value`). -/
structure NodeTables where
  node_df : List VertexRow
  kv_df : List Row3
  deriving DecidableEq, Repr

/-- The function `osm_sc::get_osm_nodes`: `node_ids`/`node_mat` are
preallocated with `nrow = nodes.size ()` rows and `kv_mat` with `nkeys`
rows; the traversal fills them by the explicit indices `i` and `keyj`; the
data frames are assigned afterwards (no host interruption on this pure
path). -/
def get_osm_nodes (nodes : Nodes) : Option NodeTables :=
  match (nodesTrav (fun _ => false) 0 nodes).2 with
  | Except.error _ => none
  | Except.ok rows => do
      let node_mat ← fillMatrix nodes.length (0, 0, "") rows.1
      let kv_mat ← fillMatrix (nodes_nkeys nodes) ("", "", "") rows.2
      some ⟨node_mat, kv_mat⟩

/-!
Specification views: the functions below restate, in the claims' vocabulary
of consecutive pairs and per-entity row blocks, the rows that the transcribed
loops above produce; they are proved equal to the loops further down.
-/

/-- Specification view of one edge row: the edge with global index `j` joins
the decimal strings of its consecutive node pair and carries the synthetic
identifier generated from the `j`-th block of ten uniform draws. -/
def edgeRowFor (u : ℕ → ℚ) (j : ℕ) (pr : OsmId × OsmId) : Row3 :=
  (toString pr.1, toString pr.2, random_id u (length_ids * j) length_ids)

/-- Specification view of one linkage row: the identifier of the edge with
global index `j`, paired with the id of the way it came from. -/
def linkRowFor (u : ℕ → ℚ) (j : ℕ) (wid : OsmId) : Row2 :=
  (random_id u (length_ids * j) length_ids, toString wid)

/-- Specification view of the edge table rows: blocks of consecutive-pair
rows, one block per way, threaded by the global edge counter `c`. -/
def edgeRowsSpec (u : ℕ → ℚ) : ℕ → Ways → List Row3
  | _, [] => []
  | c, (_, w) :: rest =>
      (((consecPairs w.nodes).enumFrom c).map fun q => edgeRowFor u q.1 q.2)
        ++ edgeRowsSpec u (c + (consecPairs w.nodes).length) rest

/-- Specification view of the object-link-edge table rows: in each way's
block, the `i`-th row pairs the `i`-th edge's identifier with the way id. -/
def linkRowsSpec (u : ℕ → ℚ) : ℕ → Ways → List Row2
  | _, [] => []
  | c, (wid, w) :: rest =>
      (((consecPairs w.nodes).enumFrom c).map fun q => linkRowFor u q.1 wid)
        ++ linkRowsSpec u (c + (consecPairs w.nodes).length) rest

/-- Specification view of the way key-value rows: each way's tags in order,
each row carrying the way's id. -/
def wayKvRowsSpec : Ways → List Row3
  | [] => []
  | (wid, w) :: rest =>
      (w.key_val.map fun kj => (toString wid, kj.1, kj.2)) ++ wayKvRowsSpec rest

/-- Specification view of the relation-membership rows: one row per pair
resolved by the tracer, in relation order. -/
def relMembRowsSpec (tr : Tracer) : Relations → List Row3
  | [] => []
  | r :: rest =>
      (((tr r).1).map fun p => (toString r.id, toString p.1, p.2))
        ++ relMembRowsSpec tr rest

/-- Specification view of the relation key-value rows: each relation's own
tags in order, each row carrying the relation's id. -/
def relKvRowsSpec : Relations → List Row3
  | [] => []
  | r :: rest =>
      (r.key_val.map fun k => (toString r.id, k.1, k.2)) ++ relKvRowsSpec rest

/-- The total number of (member-id, role) pairs returned by the tracer over a
relation collection. -/
def tracerTotal (tr : Tracer) : Relations → ℕ
  | [] => 0
  | r :: rest => ((tr r).1).length + tracerTotal tr rest

/-- Specification view of one vertex row: the node's longitude, latitude and
the decimal string of its id. -/
def vertexRowFor (nid : OsmId) (nd : OsmNode) : VertexRow :=
  (nd.lon, nd.lat, toString nid)

/-- Specification view of one node's key-value rows: its tags in order, each
row carrying the decimal string of the node's id. -/
def nodeKvRowsFor (nid : OsmId) (nd : OsmNode) : List Row3 :=
  nd.key_val.map fun kv => (toString nid, kv.1, kv.2)

end osm_sc

/-- Modelled from the spec: the upstream parser `XmlDataSC` (its class lives
outside `src/`), which per §6 of the spec is "an XML-to-graph parser
exposing column-accessor methods for vertices/edges/linkage/tags".  Only
the sixteen column accessors that `rcpp_osmdata_sc` reads are modelled,
each as an opaque column of values. -/
structure XmlDataSC where
  vx : List String
  vy : List String
  vert_id : List String
  vx0 : List String
  vx1 : List String
  edge : List String
  object : List String
  node_id : List String
  node_key : List String
  node_val : List String
  way_id : List String
  way_key : List String
  way_val : List String
  rel_id : List String
  rel_key : List String
  rel_val : List String

/-- An `Rcpp::DataFrame` as assembled by `rcpp_osmdata_sc`: an ordered list
of named columns (the `stringsAsFactors` flag of the source is an R-level
construction detail with no bearing on content and is not modelled). -/
abbrev DataFrame := List (String × List String)

/-- The function `rcpp_osmdata_sc`: parses the query text via the upstream
`XmlDataSC` constructor (modelled as the parameter `parse`), assembles the
six data frames from the parser's column accessors, and returns them as one
list whose `names` attribute is `vertex, edge, object_link_edge, obj_node,
obj_way, obj_rel`, in that order.  The compile-time `DUMP_INPUT` diagnostic
dump is a side channel with no effect on the returned value and is not
modelled. -/
def rcpp_osmdata_sc (parse : String → XmlDataSC) (st : String) :
    List (String × DataFrame) :=
  let xml := parse st
  [("vertex", [("x", xml.vx), ("y", xml.vy), ("vertex_", xml.vert_id)]),
   ("edge", [(".vx0", xml.vx0), (".vx1", xml.vx1), ("edge_", xml.edge)]),
   ("object_link_edge", [("edge_", xml.edge), ("object_", xml.object)]),
   ("obj_node", [("object_", xml.node_id), ("key", xml.node_key),
                 ("val", xml.node_val)]),
   ("obj_way", [("object_", xml.way_id), ("key", xml.way_key),
                ("val", xml.way_val)]),
   ("obj_rel", [("object_", xml.rel_id), ("key", xml.rel_key),
                ("val", xml.rel_val)])]

/-!
Concrete fixtures used by the witness theorems.
-/

/-- A concrete uniform stream: every draw is 0 (a value in `[0, 1)`). -/
def sampleU : ℕ → ℚ := fun _ => 0

/-- A concrete node, `{id 5, lon 1, lat 2, no tags}` paired below. -/
def sampleNode : OsmNode := ⟨1, 2, []⟩

/-- A concrete one-node mapping. -/
def sampleNodes : Nodes := [(5, sampleNode)]

/-- A concrete way with three nodes and one tag. -/
def sampleWay : OsmWay := ⟨[1, 2, 3], [("highway", "residential")]⟩

/-- A concrete one-way mapping. -/
def sampleWays : Ways := [(7, sampleWay)]

/-- A concrete relation with one member and one tag. -/
def sampleRel : OsmRelation := ⟨1, [(2, "outer")], [("type", "multipolygon")]⟩

/-- A concrete one-relation collection. -/
def sampleRels : Relations := [sampleRel]

/-- A concrete tracer resolving each member entry to one pair and returning
no tag pairs. -/
def sampleTracerA : osm_sc.Tracer := fun r => (r.ways, [])

/-- A concrete tracer resolving the same member pairs as `sampleTracerA` but
returning a different tag-pair list. -/
def sampleTracerB : osm_sc.Tracer := fun r => (r.ways, [("x", "y")])

/-!
Helper lemmas about the preallocate-and-fill model.
-/

theorem take_succ_set {α : Type} :
    ∀ (buf : List α) (i : ℕ) (r : α), i < buf.length →
      (buf.set i r).take (i + 1) = buf.take i ++ [r] := by
  intro buf i
  induction i generalizing buf with
  | zero =>
      intro r h
      cases buf with
      | nil => simp at h
      | cons b bs => simp
  | succ n ih =>
      intro r h
      cases buf with
      | nil => simp at h
      | cons b bs =>
          simp only [List.set_cons_succ, List.take_succ_cons, List.cons_append]
          rw [ih bs r (by simpa using h)]

theorem writeRows_exact {α : Type} :
    ∀ (rows buf : List α) (i : ℕ), i + rows.length = buf.length →
      writeRows buf i rows = some (buf.take i ++ rows) := by
  intro rows
  induction rows with
  | nil =>
      intro buf i h
      simp only [List.length_nil] at h
      simp only [writeRows, List.append_nil]
      rw [List.take_of_length_le (by omega)]
  | cons r rs ih =>
      intro buf i h
      have hi : i < buf.length := by simp at h; omega
      simp only [writeRows, if_pos hi]
      rw [ih (buf.set i r) (i + 1) (by simp at h ⊢; omega)]
      rw [take_succ_set buf i r hi]
      simp

/-- A fill pass writing exactly as many rows as were preallocated succeeds,
every write staying in bounds, and leaves no preallocated row unfilled: the
matrix is precisely the written rows. -/
theorem fillMatrix_exact {α : Type} (n : ℕ) (d : α) (rows : List α)
    (h : rows.length = n) : fillMatrix n d rows = some rows := by
  unfold fillMatrix
  rw [writeRows_exact rows (List.replicate n d) 0 (by simpa using h)]
  simp

/-!
Closed forms of the traversal loops, used to state and settle the claims.
-/

theorem consecPairs_length : ∀ ns : List OsmId,
    (consecPairs ns).length = ns.length - 1
  | [] => rfl
  | [_] => rfl
  | _ :: b :: rest => by
      simp only [consecPairs, List.length_cons]
      rw [consecPairs_length (b :: rest)]
      simp

/-- The consecutive-pair iteration visits exactly the zip of the node list
with its own tail: the pairs `(n0,n1), (n1,n2), …` in order. -/
theorem consecPairs_eq_zip : ∀ ns : List OsmId,
    consecPairs ns = ns.zip ns.tail
  | [] => rfl
  | [_] => rfl
  | a :: b :: rest => by
      simp only [consecPairs, List.tail_cons, List.zip_cons_cons]
      rw [consecPairs_eq_zip (b :: rest)]
      simp

namespace osm_sc

theorem edgeLoop_eq (u : ℕ → ℚ) (wid : OsmId) : ∀ (ns : List OsmId) (c : ℕ),
    edgeLoop u wid c ns =
      (((consecPairs ns).enumFrom c).map fun q => edgeRowFor u q.1 q.2,
       ((consecPairs ns).enumFrom c).map fun q => linkRowFor u q.1 wid)
  | [], _ => rfl
  | [_], _ => rfl
  | a :: b :: rest, c => by
      simp only [edgeLoop, consecPairs, List.enumFrom_cons, List.map_cons]
      rw [edgeLoop_eq u wid (b :: rest) (c + 1)]
      simp [edgeRowFor, linkRowFor]

theorem waysTrav_no_interrupt (u : ℕ → ℚ) : ∀ (ways : Ways) (p c : ℕ),
    waysTrav (fun _ => false) u p c ways =
      Except.ok (edgeRowsSpec u c ways, linkRowsSpec u c ways, wayKvRowsSpec ways)
  | [], _, _ => rfl
  | (wid, w) :: rest, p, c => by
      simp only [waysTrav, Bool.false_eq_true, if_false, edgeLoop_eq,
        List.length_map, List.enumFrom_length]
      rw [waysTrav_no_interrupt u rest (p + 1) (c + (consecPairs w.nodes).length)]
      simp only [edgeRowsSpec, linkRowsSpec, wayKvRowsSpec]

theorem way_nedges_eq (w : OsmWay) :
    way_nedges w = (consecPairs w.nodes).length := by
  rw [consecPairs_length]
  unfold way_nedges
  rcases w.nodes with _ | ⟨a, rest⟩ <;> simp

theorem edgeRowsSpec_length (u : ℕ → ℚ) : ∀ (ways : Ways) (c : ℕ),
    (edgeRowsSpec u c ways).length = ways_nedges ways
  | [], _ => rfl
  | (wid, w) :: rest, c => by
      simp only [edgeRowsSpec, ways_nedges, List.length_append, List.length_map,
        List.enumFrom_length]
      rw [edgeRowsSpec_length u rest, way_nedges_eq]

theorem linkRowsSpec_length (u : ℕ → ℚ) : ∀ (ways : Ways) (c : ℕ),
    (linkRowsSpec u c ways).length = ways_nedges ways
  | [], _ => rfl
  | (wid, w) :: rest, c => by
      simp only [linkRowsSpec, ways_nedges, List.length_append, List.length_map,
        List.enumFrom_length]
      rw [linkRowsSpec_length u rest, way_nedges_eq]

theorem wayKvRowsSpec_length : ∀ ways : Ways,
    (wayKvRowsSpec ways).length = ways_nkv ways
  | [] => rfl
  | (wid, w) :: rest => by
      simp only [wayKvRowsSpec, ways_nkv, List.length_append, List.length_map]
      rw [wayKvRowsSpec_length rest]

/-- The way flattener's fill pass writes exactly the preallocated number of
rows into each of its three matrices: `get_osm_ways` succeeds and the
resulting tables are precisely the emitted row lists. -/
theorem get_osm_ways_eq (u : ℕ → ℚ) (ways : Ways) :
    get_osm_ways u ways =
      some ⟨edgeRowsSpec u 0 ways, linkRowsSpec u 0 ways, wayKvRowsSpec ways⟩ := by
  unfold get_osm_ways
  rw [waysTrav_no_interrupt]
  simp only [fillMatrix_exact _ _ _ (edgeRowsSpec_length u ways 0),
    fillMatrix_exact _ _ _ (linkRowsSpec_length u ways 0),
    fillMatrix_exact _ _ _ (wayKvRowsSpec_length ways), Option.bind_some]
  rfl

theorem edgeRowsSpec_append (u : ℕ → ℚ) : ∀ (ways1 ways2 : Ways) (c : ℕ),
    edgeRowsSpec u c (ways1 ++ ways2) =
      edgeRowsSpec u c ways1 ++ edgeRowsSpec u (c + ways_nedges ways1) ways2
  | [], ways2, c => by simp [edgeRowsSpec, ways_nedges]
  | (wid, w) :: rest, ways2, c => by
      simp only [List.cons_append, edgeRowsSpec, ways_nedges, List.append_assoc,
        List.append_eq]
      rw [edgeRowsSpec_append u rest ways2, way_nedges_eq]
      ring_nf

theorem linkRowsSpec_append (u : ℕ → ℚ) : ∀ (ways1 ways2 : Ways) (c : ℕ),
    linkRowsSpec u c (ways1 ++ ways2) =
      linkRowsSpec u c ways1 ++ linkRowsSpec u (c + ways_nedges ways1) ways2
  | [], ways2, c => by simp [linkRowsSpec, ways_nedges]
  | (wid, w) :: rest, ways2, c => by
      simp only [List.cons_append, linkRowsSpec, ways_nedges, List.append_assoc,
        List.append_eq]
      rw [linkRowsSpec_append u rest ways2, way_nedges_eq]
      ring_nf

theorem relsLoop_eq (tr : Tracer) : ∀ rels : Relations,
    relsLoop tr rels = (relMembRowsSpec tr rels, relKvRowsSpec rels)
  | [] => rfl
  | r :: rest => by
      simp only [relsLoop, relMembRowsSpec, relKvRowsSpec]
      rw [relsLoop_eq tr rest]

theorem relMembRowsSpec_length (tr : Tracer) : ∀ rels : Relations,
    (relMembRowsSpec tr rels).length = tracerTotal tr rels
  | [] => rfl
  | r :: rest => by
      simp only [relMembRowsSpec, tracerTotal, List.length_append, List.length_map]
      rw [relMembRowsSpec_length tr rest]

theorem relKvRowsSpec_length : ∀ rels : Relations,
    (relKvRowsSpec rels).length = relations_nrow_kv rels
  | [] => rfl
  | r :: rest => by
      simp only [relKvRowsSpec, relations_nrow_kv, List.length_append,
        List.length_map]
      rw [relKvRowsSpec_length rest]

/-- When the tracer resolves in total exactly as many pairs as the counting
pre-pass counted member entries (`nrow_memb`), the relation flattener's fill
pass matches its preallocation exactly and the resulting tables are the
emitted row lists. -/
theorem get_osm_relations_eq (tr : Tracer) (rels : Relations)
    (h : tracerTotal tr rels = relations_nrow_memb rels) :
    get_osm_relations tr rels =
      some ⟨relMembRowsSpec tr rels, relKvRowsSpec rels⟩ := by
  unfold get_osm_relations
  rw [relsLoop_eq]
  simp only [fillMatrix_exact _ _ _ ((relMembRowsSpec_length tr rels).trans h),
    fillMatrix_exact _ _ _ (relKvRowsSpec_length rels), Option.bind_some]
  rfl

theorem nodesTrav_no_interrupt : ∀ (nodes : Nodes) (i : ℕ),
    (nodesTrav (fun _ => false) i nodes).2 =
      Except.ok (nodes.map fun p => vertexRowFor p.1 p.2,
        nodes.flatMap fun p => nodeKvRowsFor p.1 p.2)
  | [], _ => rfl
  | (nid, nd) :: rest, i => by
      simp only [nodesTrav, Bool.false_eq_true, if_false]
      by_cases h : i % 1000 = 0 <;>
        simp only [h, if_pos, if_true, if_false, List.map_cons, List.flatMap_cons] <;>
        rw [show ((nodesTrav (fun _ => false) (i + 1) rest).2 : _) =
              Except.ok (rest.map fun p => vertexRowFor p.1 p.2,
                rest.flatMap fun p => nodeKvRowsFor p.1 p.2) from
              nodesTrav_no_interrupt rest (i + 1)] <;>
        simp [nodeRowsCons, vertexRowFor, nodeKvRowsFor]

theorem nodeKvRows_length : ∀ nodes : Nodes,
    (nodes.flatMap fun p => nodeKvRowsFor p.1 p.2).length = nodes_nkeys nodes
  | [] => rfl
  | (nid, nd) :: rest => by
      simp only [List.flatMap_cons, nodes_nkeys, List.length_append]
      rw [nodeKvRows_length rest]
      simp [nodeKvRowsFor]

/-- The node flattener's fill pass writes exactly the preallocated number of
rows into the vertex storage and the key-value matrix: `get_osm_nodes`
succeeds and the tables are the emitted row lists. -/
theorem get_osm_nodes_eq (nodes : Nodes) :
    get_osm_nodes nodes =
      some ⟨nodes.map fun p => vertexRowFor p.1 p.2,
        nodes.flatMap fun p => nodeKvRowsFor p.1 p.2⟩ := by
  unfold get_osm_nodes
  rw [nodesTrav_no_interrupt]
  simp only [fillMatrix_exact _ _ _ (by simp : (nodes.map fun p =>
      vertexRowFor p.1 p.2).length = nodes.length),
    fillMatrix_exact _ _ _ (nodeKvRows_length nodes), Option.bind_some]
  rfl

theorem nodesTrav_polls : ∀ (nodes : Nodes) (s : ℕ),
    (nodesTrav (fun _ => false) s nodes).1 =
      (List.range' s nodes.length).filter fun i => i % 1000 == 0
  | [], _ => rfl
  | (nid, nd) :: rest, s => by
      have ih := nodesTrav_polls rest (s + 1)
      by_cases h : s % 1000 = 0
      · have hb : (s % 1000 == 0) = true := by simpa using h
        simp [nodesTrav, h, hb, ih, List.range'_succ, List.filter_cons]
      · have hb : (s % 1000 == 0) = false := by simpa using h
        simp [nodesTrav, h, hb, ih, List.range'_succ, List.filter_cons]

theorem nodesTrav_interrupted (sig : ℕ → Bool) : ∀ (nodes : Nodes) (s i : ℕ),
    s ≤ i → i < s + nodes.length → i % 1000 = 0 → sig i = true →
      (nodesTrav sig s nodes).2 = Except.error ()
  | [], s, i, hsi, hlen, _, _ => by simp at hlen; omega
  | (nid, nd) :: rest, s, i, hsi, hlen, hmod, hsig => by
      simp only [nodesTrav]
      by_cases hs : s % 1000 = 0
      · by_cases ht : sig s = true
        · simp [hs, ht]
        · have hne : i ≠ s := fun he => ht (he ▸ hsig)
          have : (nodesTrav sig (s + 1) rest).2 = Except.error () :=
            nodesTrav_interrupted sig rest (s + 1) i (by omega)
              (by simp at hlen; omega) hmod hsig
          simp [hs, ht, nodeRowsCons, this]
      · have hne : i ≠ s := fun he => hs (he ▸ hmod)
        have : (nodesTrav sig (s + 1) rest).2 = Except.error () :=
          nodesTrav_interrupted sig rest (s + 1) i (by omega)
            (by simp at hlen; omega) hmod hsig
        simp [hs, nodeRowsCons, this]

theorem waysTrav_interrupted (sig : ℕ → Bool) (u : ℕ → ℚ) :
    ∀ (ways : Ways) (p c q : ℕ), p ≤ q → q < p + ways.length → sig q = true →
      waysTrav sig u p c ways = Except.error ()
  | [], p, c, q, hpq, hlen, _ => by simp at hlen; omega
  | (wid, w) :: rest, p, c, q, hpq, hlen, hsig => by
      simp only [waysTrav]
      by_cases hp : sig p = true
      · simp [hp]
      · have hne : q ≠ p := fun he => hp (he ▸ hsig)
        have : waysTrav sig u (p + 1)
            (c + (edgeLoop u wid c w.nodes).1.length) rest = Except.error () :=
          waysTrav_interrupted sig u rest (p + 1) _ q (by omega)
            (by simp at hlen; omega) hsig
        simp [hp, this]

end osm_sc

/-!
The claims.
-/

/-- C2: the number of rows in the relation-membership table produced by
`get_osm_relations` equals the sum, over all relations, of the length of the
(member-id, role) pair list returned by the external tracer for that
relation.  The tracer is spec-modelled as a parameter; the hypothesis is the
spec's exact-preallocation invariant, that in total the tracer resolves as
many pairs as the pre-pass counted member entries. -/
theorem claim_C2_relation_membership_count (tr : osm_sc.Tracer)
    (rels : Relations)
    (h : osm_sc.tracerTotal tr rels = osm_sc.relations_nrow_memb rels) :
    ∃ t, osm_sc.get_osm_relations tr rels = some t ∧
      t.rel_df.length = osm_sc.tracerTotal tr rels :=
  ⟨_, osm_sc.get_osm_relations_eq tr rels h,
    osm_sc.relMembRowsSpec_length tr rels⟩

/-- Witness for C2 at a concrete one-relation collection and tracer. -/
theorem claim_C2_relation_membership_count_witness :
    osm_sc.tracerTotal sampleTracerA sampleRels =
      osm_sc.relations_nrow_memb sampleRels ∧
    ∃ t, osm_sc.get_osm_relations sampleTracerA sampleRels = some t ∧
      t.rel_df.length = osm_sc.tracerTotal sampleTracerA sampleRels :=
  ⟨rfl, claim_C2_relation_membership_count sampleTracerA sampleRels rfl⟩

/-- C3: in each flattener the row counts computed by the counting pre-pass
equal the number of rows written in the fill pass, so each fill succeeds
with every write in bounds and no preallocated row left unfilled (for the
relation-membership matrix this rests on the spec's invariant that the
tracer resolves exactly the counted member entries, stated as the
hypothesis). -/
theorem claim_C3_prepass_counts_exact (u : ℕ → ℚ) (ways : Ways)
    (nodes : Nodes) (tr : osm_sc.Tracer) (rels : Relations)
    (htr : osm_sc.tracerTotal tr rels = osm_sc.relations_nrow_memb rels) :
    osm_sc.get_osm_ways u ways =
      some ⟨osm_sc.edgeRowsSpec u 0 ways, osm_sc.linkRowsSpec u 0 ways,
        osm_sc.wayKvRowsSpec ways⟩ ∧
    (osm_sc.edgeRowsSpec u 0 ways).length = osm_sc.ways_nedges ways ∧
    (osm_sc.linkRowsSpec u 0 ways).length = osm_sc.ways_nedges ways ∧
    (osm_sc.wayKvRowsSpec ways).length = osm_sc.ways_nkv ways ∧
    osm_sc.get_osm_nodes nodes =
      some ⟨nodes.map fun p => osm_sc.vertexRowFor p.1 p.2,
        nodes.flatMap fun p => osm_sc.nodeKvRowsFor p.1 p.2⟩ ∧
    (nodes.map fun p => osm_sc.vertexRowFor p.1 p.2).length = nodes.length ∧
    (nodes.flatMap fun p => osm_sc.nodeKvRowsFor p.1 p.2).length =
      osm_sc.nodes_nkeys nodes ∧
    osm_sc.get_osm_relations tr rels =
      some ⟨osm_sc.relMembRowsSpec tr rels, osm_sc.relKvRowsSpec rels⟩ ∧
    (osm_sc.relMembRowsSpec tr rels).length =
      osm_sc.relations_nrow_memb rels ∧
    (osm_sc.relKvRowsSpec rels).length = osm_sc.relations_nrow_kv rels :=
  ⟨osm_sc.get_osm_ways_eq u ways, osm_sc.edgeRowsSpec_length u ways 0,
    osm_sc.linkRowsSpec_length u ways 0, osm_sc.wayKvRowsSpec_length ways,
    osm_sc.get_osm_nodes_eq nodes, by simp, osm_sc.nodeKvRows_length nodes,
    osm_sc.get_osm_relations_eq tr rels htr,
    (osm_sc.relMembRowsSpec_length tr rels).trans htr,
    osm_sc.relKvRowsSpec_length rels⟩

/-- Witness for C3 at concrete inputs on all three flatteners. -/
theorem claim_C3_prepass_counts_exact_witness :
    osm_sc.tracerTotal sampleTracerA sampleRels =
      osm_sc.relations_nrow_memb sampleRels ∧
    osm_sc.get_osm_ways sampleU sampleWays =
      some ⟨osm_sc.edgeRowsSpec sampleU 0 sampleWays,
        osm_sc.linkRowsSpec sampleU 0 sampleWays,
        osm_sc.wayKvRowsSpec sampleWays⟩ ∧
    osm_sc.get_osm_nodes sampleNodes =
      some ⟨sampleNodes.map fun p => osm_sc.vertexRowFor p.1 p.2,
        sampleNodes.flatMap fun p => osm_sc.nodeKvRowsFor p.1 p.2⟩ ∧
    osm_sc.get_osm_relations sampleTracerA sampleRels =
      some ⟨osm_sc.relMembRowsSpec sampleTracerA sampleRels,
        osm_sc.relKvRowsSpec sampleRels⟩ := by
  have h := claim_C3_prepass_counts_exact sampleU sampleWays sampleNodes
    sampleTracerA sampleRels rfl
  exact ⟨rfl, h.1, h.2.2.2.2.1, h.2.2.2.2.2.2.2.1⟩

/-- C6: if the host signals cancellation at a poll point reached during a
flattener's traversal, the traversal aborts with the interrupt condition
(`Except.error ()`): the caller-supplied data frames are never assigned,
because on this path no row lists are produced at all — the output tables
are only constructed from the matrices after the loop completes. -/
theorem claim_C6_cancellation_aborts :
    (∀ (sig : ℕ → Bool) (nodes : Nodes) (i : ℕ),
        i < nodes.length → i % 1000 = 0 → sig i = true →
        (osm_sc.nodesTrav sig 0 nodes).2 = Except.error ()) ∧
    (∀ (sig : ℕ → Bool) (u : ℕ → ℚ) (ways : Ways) (p : ℕ),
        p < ways.length → sig p = true →
        osm_sc.waysTrav sig u 0 0 ways = Except.error ()) :=
  ⟨fun sig nodes i h1 h2 h3 =>
      osm_sc.nodesTrav_interrupted sig nodes 0 i (Nat.zero_le i)
        (by omega) h2 h3,
    fun sig u ways p h1 h2 =>
      osm_sc.waysTrav_interrupted sig u ways 0 0 p (Nat.zero_le p)
        (by omega) h2⟩

/-- Witness for C6: a host signal raised from the start aborts both the node
and the way traversal on concrete inputs. -/
theorem claim_C6_cancellation_aborts_witness :
    (osm_sc.nodesTrav (fun _ => true) 0 sampleNodes).2 = Except.error () ∧
    osm_sc.waysTrav (fun _ => true) sampleU 0 0 sampleWays =
      Except.error () :=
  ⟨claim_C6_cancellation_aborts.1 (fun _ => true) sampleNodes 0
      (by decide) rfl rfl,
    claim_C6_cancellation_aborts.2 (fun _ => true) sampleU sampleWays 0
      (by decide) rfl⟩

/-- C7: during the node flattener's traversal the cancellation signal is
polled before processing node index `i` precisely when `i` is a multiple of
1000 (including `i = 0`), and at no other point. -/
theorem claim_C7_node_poll_cadence (nodes : Nodes) :
    (osm_sc.nodesTrav (fun _ => false) 0 nodes).1 =
      (List.range nodes.length).filter (fun i => i % 1000 == 0) ∧
    ∀ i : ℕ, i ∈ (osm_sc.nodesTrav (fun _ => false) 0 nodes).1 ↔
      i < nodes.length ∧ i % 1000 = 0 := by
  have h : (osm_sc.nodesTrav (fun _ => false) 0 nodes).1 =
      (List.range nodes.length).filter (fun i => i % 1000 == 0) := by
    rw [List.range_eq_range']
    exact osm_sc.nodesTrav_polls nodes 0
  refine ⟨h, fun i => ?_⟩
  rw [h]
  simp [List.mem_filter, and_comm]

/-- C8: for every input string, `rcpp_osmdata_sc` returns exactly six
tables, named, in order: vertex, edge, object_link_edge, obj_node, obj_way,
obj_rel. -/
theorem claim_C8_six_named_tables (parse : String → XmlDataSC) (st : String) :
    (rcpp_osmdata_sc parse st).map Prod.fst =
      ["vertex", "edge", "object_link_edge", "obj_node", "obj_way",
        "obj_rel"] ∧
    (rcpp_osmdata_sc parse st).length = 6 :=
  ⟨rfl, rfl⟩

/-- C9: in the result of `rcpp_osmdata_sc`, the `edge_` column of the `edge`
table and the `edge_` column of the `object_link_edge` table are the same
sequence, taken from the same upstream accessor, so they have equal length
and agree at every index. -/
theorem claim_C9_shared_edge_column (parse : String → XmlDataSC)
    (st : String) :
    ∃ ecol ocol : List String,
      ((rcpp_osmdata_sc parse st).get? 1).map
        (fun tb => tb.2.lookup "edge_") = some (some ecol) ∧
      ((rcpp_osmdata_sc parse st).get? 2).map
        (fun tb => tb.2.lookup "edge_") = some (some ocol) ∧
      ecol = ocol ∧ ecol.length = ocol.length ∧
      ∀ i : ℕ, ecol.get? i = ocol.get? i :=
  ⟨(parse st).edge, (parse st).edge, rfl, rfl, rfl, rfl, fun _ => rfl⟩

/-- C10: the relation key-value table is built solely from each relation's
own `key_val` set; the tag pairs returned by the tracer are never read, so
two runs whose tracers differ (in particular in their returned tag-pair
lists) produce identical key-value tables. -/
theorem claim_C10_rel_kv_tracer_independent (rels : Relations)
    (tr1 tr2 : osm_sc.Tracer)
    (h1 : osm_sc.tracerTotal tr1 rels = osm_sc.relations_nrow_memb rels)
    (h2 : osm_sc.tracerTotal tr2 rels = osm_sc.relations_nrow_memb rels) :
    ∃ t1 t2, osm_sc.get_osm_relations tr1 rels = some t1 ∧
      osm_sc.get_osm_relations tr2 rels = some t2 ∧
      t1.kv_df = t2.kv_df ∧ t1.kv_df = osm_sc.relKvRowsSpec rels :=
  ⟨_, _, osm_sc.get_osm_relations_eq tr1 rels h1,
    osm_sc.get_osm_relations_eq tr2 rels h2, rfl, rfl⟩

/-- Witness for C10: two concrete tracers returning different tag-pair lists
on the same relation collection. -/
theorem claim_C10_rel_kv_tracer_independent_witness :
    sampleTracerA sampleRel ≠ sampleTracerB sampleRel ∧
    ∃ t1 t2, osm_sc.get_osm_relations sampleTracerA sampleRels = some t1 ∧
      osm_sc.get_osm_relations sampleTracerB sampleRels = some t2 ∧
      t1.kv_df = t2.kv_df ∧ t1.kv_df = osm_sc.relKvRowsSpec sampleRels :=
  ⟨by decide,
    claim_C10_rel_kv_tracer_independent sampleRels sampleTracerA
      sampleTracerB rfl rfl⟩

/-- C4: every identifier produced by `random_id` at the way flattener's
length 10 is a string of exactly 10 characters drawn from the 62-symbol
alphabet, and for any draw in `[0, 1)` the computed alphabet index is in
bounds (below 62). -/
theorem claim_C4_random_id_alphabet (u : ℕ → ℚ) (start : ℕ)
    (hu : ∀ t, 0 ≤ u t ∧ u t < 1) :
    (random_id u start length_ids).length = 10 ∧
    charset.length = 62 ∧
    (∀ t, runifIndex u t < 62) ∧
    (∀ c ∈ (random_id u start length_ids).toList, c ∈ charset) := by
  have hidx : ∀ t, runifIndex u t < 62 := by
    intro t
    have h1 := (hu t).1
    have h2 := (hu t).2
    have hmul : u t * 62 < 62 := by nlinarith
    have hfl : ⌊u t * 62⌋ < (62 : ℤ) := by
      rw [Int.floor_lt]
      push_cast
      exact hmul
    unfold runifIndex
    omega
  refine ⟨?_, by decide, hidx, ?_⟩
  · simp [random_id, String.length, length_ids]
  · intro c hc
    have hl : (random_id u start length_ids).toList =
        (List.range length_ids).map fun j => randchar u (start + j) := rfl
    rw [hl] at hc
    obtain ⟨j, hj, rfl⟩ := List.mem_map.mp hc
    unfold randchar
    have hlt : runifIndex u (start + j) < charset.length := by
      rw [show charset.length = 62 from by decide]
      exact hidx (start + j)
    rw [List.getD_eq_getElem charset '?' hlt]
    exact List.getElem_mem hlt

/-- Witness for C4 at the concrete stream whose every draw is 0. -/
theorem claim_C4_random_id_alphabet_witness :
    (∀ t, 0 ≤ sampleU t ∧ sampleU t < 1) ∧
    ((random_id sampleU 0 length_ids).length = 10 ∧
      charset.length = 62 ∧
      (∀ t, runifIndex sampleU t < 62) ∧
      (∀ c ∈ (random_id sampleU 0 length_ids).toList, c ∈ charset)) :=
  ⟨fun _ => ⟨le_refl 0, zero_lt_one⟩,
    claim_C4_random_id_alphabet sampleU 0 (fun _ => ⟨le_refl 0, zero_lt_one⟩)⟩

/-- C5: the node flattener produces exactly one vertex row per node, whose
`x_` is the node's longitude, `y_` its latitude and `vertex_` the decimal
string of its id, in the mapping's iteration order; the key-value rows
attributed to a node are exactly its tags, in per-node order. -/
theorem claim_C5_node_flattener_rows (pre post : Nodes) (nid : OsmId)
    (nd : OsmNode) :
    ∃ t, osm_sc.get_osm_nodes (pre ++ (nid, nd) :: post) = some t ∧
      t.node_df = (pre ++ (nid, nd) :: post).map
        (fun p => osm_sc.vertexRowFor p.1 p.2) ∧
      t.kv_df = (pre ++ (nid, nd) :: post).flatMap
        (fun p => osm_sc.nodeKvRowsFor p.1 p.2) ∧
      t.node_df.length = (pre ++ (nid, nd) :: post).length ∧
      (t.node_df.drop pre.length).take 1 = [(nd.lon, nd.lat, toString nid)] ∧
      (t.kv_df.drop (osm_sc.nodes_nkeys pre)).take nd.key_val.length =
        osm_sc.nodeKvRowsFor nid nd ∧
      (osm_sc.nodeKvRowsFor nid nd).length = nd.key_val.length := by
  refine ⟨_, osm_sc.get_osm_nodes_eq _, rfl, rfl, by simp, ?_, ?_,
    by simp [osm_sc.nodeKvRowsFor]⟩
  · have hmap : (pre ++ (nid, nd) :: post).map
        (fun p => osm_sc.vertexRowFor p.1 p.2) =
        pre.map (fun p => osm_sc.vertexRowFor p.1 p.2) ++
          (osm_sc.vertexRowFor nid nd ::
            post.map (fun p => osm_sc.vertexRowFor p.1 p.2)) := by simp
    rw [hmap, List.drop_left' (by simp)]
    simp [osm_sc.vertexRowFor]
  · have hfm : (pre ++ (nid, nd) :: post).flatMap
        (fun p => osm_sc.nodeKvRowsFor p.1 p.2) =
        pre.flatMap (fun p => osm_sc.nodeKvRowsFor p.1 p.2) ++
          (osm_sc.nodeKvRowsFor nid nd ++
            post.flatMap (fun p => osm_sc.nodeKvRowsFor p.1 p.2)) := by simp
    rw [hfm, List.drop_left' (osm_sc.nodeKvRows_length pre),
      List.take_left' (by simp [osm_sc.nodeKvRowsFor])]

/-- C1: for every way with node sequence `[n0..n(k-1)]` in the collection,
the way flattener emits exactly `max (k-1) 0` edge rows — the consecutive
pairs `(n0,n1), …, (n(k-2),n(k-1))` in order (natural subtraction makes
`k - 1` equal `max (k-1) 0`), the `j`-th globally indexed edge carrying the
synthetic identifier generated from its own fresh block of ten uniform
draws — and equally many linkage rows, the `i`-th of which pairs the `i`-th
edge's identifier with that way's id. -/
theorem claim_C1_way_flattener_edges (u : ℕ → ℚ) (ways1 ways2 : Ways)
    (wid : OsmId) (w : OsmWay) :
    ∃ t, osm_sc.get_osm_ways u (ways1 ++ (wid, w) :: ways2) = some t ∧
      (t.edge.drop (osm_sc.ways_nedges ways1)).take (w.nodes.length - 1) =
        ((consecPairs w.nodes).enumFrom (osm_sc.ways_nedges ways1)).map
          (fun q => osm_sc.edgeRowFor u q.1 q.2) ∧
      (t.object_link_edge.drop (osm_sc.ways_nedges ways1)).take
          (w.nodes.length - 1) =
        ((consecPairs w.nodes).enumFrom (osm_sc.ways_nedges ways1)).map
          (fun q => osm_sc.linkRowFor u q.1 wid) ∧
      (consecPairs w.nodes).length = w.nodes.length - 1 ∧
      consecPairs w.nodes = w.nodes.zip w.nodes.tail ∧
      (∀ j : ℕ,
        ((((consecPairs w.nodes).enumFrom (osm_sc.ways_nedges ways1)).map
          (fun q => osm_sc.edgeRowFor u q.1 q.2)).get? j).map
            (fun r => r.2.2) =
        ((((consecPairs w.nodes).enumFrom (osm_sc.ways_nedges ways1)).map
          (fun q => osm_sc.linkRowFor u q.1 wid)).get? j).map
            (fun r => r.1)) ∧
      t.edge.length = t.object_link_edge.length := by
  refine ⟨_, osm_sc.get_osm_ways_eq u _, ?_, ?_, consecPairs_length _,
    consecPairs_eq_zip _, ?_, ?_⟩
  · show ((osm_sc.edgeRowsSpec u 0 (ways1 ++ (wid, w) :: ways2)).drop
        (osm_sc.ways_nedges ways1)).take (w.nodes.length - 1) = _
    rw [osm_sc.edgeRowsSpec_append]
    simp only [osm_sc.edgeRowsSpec, Nat.zero_add]
    rw [List.drop_left' (osm_sc.edgeRowsSpec_length u ways1 0),
      List.take_left' (by simp [consecPairs_length])]
  · show ((osm_sc.linkRowsSpec u 0 (ways1 ++ (wid, w) :: ways2)).drop
        (osm_sc.ways_nedges ways1)).take (w.nodes.length - 1) = _
    rw [osm_sc.linkRowsSpec_append]
    simp only [osm_sc.linkRowsSpec, Nat.zero_add]
    rw [List.drop_left' (osm_sc.linkRowsSpec_length u ways1 0),
      List.take_left' (by simp [consecPairs_length])]
  · intro j
    rw [List.get?_map, List.get?_map]
    cases hq : ((consecPairs w.nodes).enumFrom
        (osm_sc.ways_nedges ways1)).get? j <;>
      simp [hq, osm_sc.edgeRowFor, osm_sc.linkRowFor]
  · show (osm_sc.edgeRowsSpec u 0 _).length = (osm_sc.linkRowsSpec u 0 _).length
    rw [osm_sc.edgeRowsSpec_length, osm_sc.linkRowsSpec_length]
